import Mathlib

/-!
Verification of the subtitle pipeline of the video-transcriber application.

The development shallowly embeds the pure core of `src/index.js` and
`src/translate.js`:

* the greedy subtitle chunker with its even-slicing fallback
  (`translateSubtitles`, src/translate.js lines 190-238),
* the timeline reconciliation (`transcribeChunks` offset adjustment and
  `mergeTranscriptions`, src/index.js lines 130-234),
* the translation dispatch loop with its usage accounting and failure
  behaviour (src/translate.js lines 242-324, src/index.js lines 247-302),
* the `processVideo` control flow including cleanup (src/index.js lines 20-84),
* the sequence of progress percentages emitted during a run.

External collaborators (the tiktoken tokenizer, the OpenAI chat and Whisper
endpoints, ffmpeg and the file system) are parameters or explicit data:
a token-cost function `tok : String → Nat`, per-chunk response outcomes,
per-audio-chunk transcription outcomes and probed durations.
JavaScript numbers are modelled as `ℚ` (the claims only involve additions
and comparisons of dyadic rationals, on which IEEE doubles are exact) and
as `Nat`/`Int` for token counts.
-/

namespace VideoTranscriber

/-! ### SubtitleChunker (src/translate.js lines 190-240) -/

/-- `const maxEntriesPerChunk = 15` (src/translate.js line 193). -/
def maxEntriesPerChunk : Nat := 15

/-- `const maxApiCalls = 25` (src/translate.js line 227). -/
def maxApiCalls : Nat := 25

/-- `const reservedTokens = 500` (src/translate.js line 186). -/
def reservedTokens : Nat := 500

/-- Context-window selection by model name (src/translate.js lines 175-184). -/
def maxModelTokens (model : String) : Nat :=
  if model = "gpt-4o" then 4096
  else if model.startsWith "gpt-3.5" then 4096
  else if model.startsWith "gpt-4" then 8192
  else 2048

/-- `tokensPerRequest = maxModelTokens - reservedTokens` (src/translate.js line 187). -/
def tokensPerRequest (model : String) : Nat := maxModelTokens model - reservedTokens

/--
The greedy packing loop of `translateSubtitles` (src/translate.js lines
196-224).  State: the chunks already closed, `currentChunkEntries` and
`currentChunkTokens`.  `tok e` is `encoding.encode(entry + '\n\n').length`;
`2 * tok e` is `Math.ceil(entryTokens * 2.0)`, exact since `entryTokens` is a
natural number.  `bp` is `basePromptTokens`, `tpr` is `tokensPerRequest`.
-/
def buildChunksGo (tpr bp : Nat) (tok : String → Nat) :
    List String → List String → Nat → List (List String)
  | [], cur, _ => if cur = [] then [] else [cur]
  | e :: rest, cur, curTok =>
    let entryTokens := tok e
    let estimatedTranslationTokens := 2 * entryTokens
    if cur.length + 1 > maxEntriesPerChunk ∨
        curTok + entryTokens + estimatedTranslationTokens > tpr then
      (if cur = [] then [] else [cur]) ++
        buildChunksGo tpr bp tok rest [e] (bp + entryTokens)
    else
      buildChunksGo tpr bp tok rest (cur ++ [e]) (curTok + entryTokens)

/-- The full greedy pass over the SRT entries, starting from an empty buffer
whose running token count is `basePromptTokens` (src/translate.js lines 196-198). -/
def buildChunks (bp tpr : Nat) (tok : String → Nat) (es : List String) :
    List (List String) :=
  buildChunksGo tpr bp tok es [] bp

/-- `Math.ceil(a / b)` on natural numbers. -/
def ceilDivNat (a b : Nat) : Nat := (a + b - 1) / b

/--
The even-slicing fallback loop
`for (let i = 0; i < srtEntries.length; i += entriesPerChunk)`
(src/translate.js lines 231-234).  The `size = 0` case is unreachable at the
call site (the fallback only runs when at least 26 entries exist, so
`entriesPerChunk ≥ 1`); it is mapped to `[]` to keep the function total.
-/
def evenSlices {α : Type} (size : Nat) : List α → List (List α)
  | [] => []
  | e :: rest =>
    if size = 0 then []
    else (e :: rest).take size :: evenSlices size ((e :: rest).drop size)
termination_by l => l.length
decreasing_by
  simp only [List.length_drop, List.length_cons]
  omega

/--
The complete SubtitleChunker: the greedy pass, replaced by even slices of
`Math.ceil(srtEntries.length / maxApiCalls)` entries when it produced more
than `maxApiCalls` chunks (src/translate.js lines 227-238).  Chunks are kept
as entry lists; the source joins each with `'\n\n'` when forming the request.
-/
def subtitleChunks (bp tpr : Nat) (tok : String → Nat) (es : List String) :
    List (List String) :=
  if (buildChunks bp tpr tok es).length > maxApiCalls then
    evenSlices (ceilDivNat es.length maxApiCalls) es
  else buildChunks bp tpr tok es

/-- The request text of one chunk, the entries interleaved with blank lines
as in `chunks.push(currentChunkEntries.join('\n\n'))` (src/translate.js line 209). -/
def chunkText (c : List String) : String := String.intercalate "\n\n" c

theorem buildChunksGo_join (tpr bp : Nat) (tok : String → Nat) :
    ∀ (es cur : List String) (t : Nat),
      (buildChunksGo tpr bp tok es cur t).flatten = cur ++ es := by
  intro es
  induction es with
  | nil =>
    intro cur t
    simp only [buildChunksGo]
    split
    · simp_all
    · simp
  | cons e rest ih =>
    intro cur t
    simp only [buildChunksGo]
    split
    · rename_i hcond
      rw [List.flatten_append, ih]
      split
      · simp_all
      · simp
    · rw [ih]
      simp

theorem evenSlices_join {α : Type} (size : Nat) (hs : size ≠ 0) :
    ∀ l : List α, (evenSlices size l).flatten = l := by
  intro l
  induction l using evenSlices.induct size with
  | case1 => simp [evenSlices]
  | case2 e rest h => simp_all [evenSlices]
  | case3 e rest hsz ih =>
    rw [evenSlices]
    simp only [if_neg hsz, List.flatten_cons, ih, List.take_append_drop]

/--
Claim C1: the SubtitleChunker output — the greedy pass, or the even-slicing
fallback when the greedy pass exceeds the chunk-count cap — is a partition of
the input: concatenating the chunks' entries in chunk order reproduces the
original entry sequence exactly, with nothing duplicated, dropped or
reordered.
-/
theorem subtitleChunks_partition (bp tpr : Nat) (tok : String → Nat)
    (es : List String) : (subtitleChunks bp tpr tok es).flatten = es := by
  unfold subtitleChunks
  split
  · rename_i hgt
    have hne : es ≠ [] := by
      intro h
      subst h
      simp [buildChunks, buildChunksGo, maxApiCalls] at hgt
    have hsz : ceilDivNat es.length maxApiCalls ≠ 0 := by
      have : es.length ≠ 0 := by simpa using hne
      simp only [ceilDivNat, maxApiCalls]
      omega
    exact evenSlices_join _ hsz es
  · simpa [buildChunks] using buildChunksGo_join tpr bp tok es [] bp

theorem buildChunksGo_sizes (tpr bp : Nat) (tok : String → Nat) :
    ∀ (es cur : List String) (t : Nat), cur.length ≤ maxEntriesPerChunk →
      ∀ c ∈ buildChunksGo tpr bp tok es cur t, c.length ≤ maxEntriesPerChunk := by
  intro es
  induction es with
  | nil =>
    intro cur t hcur c hc
    simp only [buildChunksGo] at hc
    split at hc
    · simp at hc
    · simp only [List.mem_singleton] at hc
      exact hc ▸ hcur
  | cons e rest ih =>
    intro cur t hcur c hc
    simp only [buildChunksGo] at hc
    split at hc
    · rw [List.mem_append] at hc
      rcases hc with hc | hc
      · split at hc
        · simp at hc
        · simp only [List.mem_singleton] at hc
          exact hc ▸ hcur
      · exact ih [e] _ (by simp [maxEntriesPerChunk]) c hc
    · rename_i hcond
      have hlen : cur.length + 1 ≤ maxEntriesPerChunk := by
        push_neg at hcond
        exact hcond.1
      exact ih (cur ++ [e]) _ (by simpa using hlen) c hc

theorem evenSlices_sizes {α : Type} (size : Nat) :
    ∀ l : List α, ∀ c ∈ evenSlices size l, c.length ≤ size := by
  intro l
  induction l using evenSlices.induct size with
  | case1 => simp [evenSlices]
  | case2 e rest h => simp_all [evenSlices]
  | case3 e rest hsz ih =>
    intro c hc
    rw [evenSlices, if_neg hsz] at hc
    rcases List.mem_cons.mp hc with hc | hc
    · exact hc ▸ List.length_take_le size _
    · exact ih c hc

theorem evenSlices_count {α : Type} (size : Nat) (hs : 0 < size) :
    ∀ (m : Nat) (l : List α), l.length ≤ m * size →
      (evenSlices size l).length ≤ m := by
  intro m
  induction m with
  | zero =>
    intro l hl
    have : l = [] := by
      cases l with
      | nil => rfl
      | cons e rest => simp at hl
    subst this
    simp [evenSlices]
  | succ m ih =>
    intro l hl
    cases l with
    | nil => simp [evenSlices]
    | cons e rest =>
      rw [evenSlices, if_neg (Nat.pos_iff_ne_zero.mp hs)]
      have hmul : (m + 1) * size = m * size + size := by ring
      rw [hmul] at hl
      have hd : ((e :: rest).drop size).length ≤ m * size := by
        rw [List.length_drop]
        omega
      have := ih _ hd
      simp only [List.length_cons]
      omega

/--
Claim C3: the number of translation chunks produced per target language never
exceeds `maxApiCalls` (25); whenever the greedy pass yields more than 25
chunks it is discarded and replaced by contiguous even slices of
`ceil(N / 25)` entries in original order, and the resulting chunk count is at
most 25.
-/
theorem subtitleChunks_le_maxApiCalls (bp tpr : Nat) (tok : String → Nat)
    (es : List String) :
    (subtitleChunks bp tpr tok es).length ≤ maxApiCalls ∧
      ((buildChunks bp tpr tok es).length > maxApiCalls →
        subtitleChunks bp tpr tok es =
          evenSlices (ceilDivNat es.length maxApiCalls) es) := by
  constructor
  · unfold subtitleChunks
    split
    · rename_i hgt
      have hne : es ≠ [] := by
        intro h
        subst h
        simp [buildChunks, buildChunksGo, maxApiCalls] at hgt
      have hlen : es.length ≠ 0 := by simpa using hne
      have hs : 0 < ceilDivNat es.length maxApiCalls := by
        simp only [ceilDivNat, maxApiCalls]
        omega
      apply evenSlices_count _ hs maxApiCalls
      simp only [ceilDivNat, maxApiCalls]
      omega
    · omega
  · intro hgt
    unfold subtitleChunks
    rw [if_pos hgt]

/--
Witness for claim C3's theorem at a concrete fallback-triggering input:
376 unit-cost entries make the greedy pass produce 26 chunks, so the even
slices (16 entries each) are returned — 24 chunks, within the cap.
-/
theorem subtitleChunks_le_maxApiCalls_witness :
    (subtitleChunks 0 3596 (fun _ => 1) (List.replicate 376 "a")).length ≤
        maxApiCalls ∧
      subtitleChunks 0 3596 (fun _ => 1) (List.replicate 376 "a") =
        evenSlices (ceilDivNat (List.replicate 376 "a").length maxApiCalls)
          (List.replicate 376 "a") :=
  ⟨(subtitleChunks_le_maxApiCalls 0 3596 (fun _ => 1) (List.replicate 376 "a")).1,
    (subtitleChunks_le_maxApiCalls 0 3596 (fun _ => 1)
      (List.replicate 376 "a")).2 (by decide)⟩

/--
Counterexample to claim C4 as stated: with 376 unit-cost entries the greedy
pass yields 26 chunks, the even-slicing fallback takes over with
`ceil(376 / 25) = 16` entries per slice, and the produced chunks violate the
15-entry cap.
-/
theorem chunk_entry_cap_counterexample :
    ¬ (∀ c ∈ subtitleChunks 0 3596 (fun _ => 1) (List.replicate 376 "a"),
        c.length ≤ maxEntriesPerChunk) := by
  intro h
  have hfall : subtitleChunks 0 3596 (fun _ => 1) (List.replicate 376 "a") =
      evenSlices 16 (List.replicate 376 "a") := by
    unfold subtitleChunks
    rw [if_pos (by decide)]
    norm_num [ceilDivNat, maxApiCalls]
  have hrep : List.replicate 376 "a" = "a" :: List.replicate 375 "a" := rfl
  have hmem : ("a" :: List.replicate 375 "a").take 16 ∈
      subtitleChunks 0 3596 (fun _ => 1) (List.replicate 376 "a") := by
    rw [hfall, hrep, evenSlices, if_neg (by omega)]
    exact List.mem_cons_self _ _
  have hlen := h _ hmem
  rw [List.length_take, List.length_cons, List.length_replicate] at hlen
  simp only [maxEntriesPerChunk] at hlen
  omega

/--
Claim C4 as amended: chunks produced by the greedy pass always hold at most
`maxEntriesPerChunk` (15) entries, but chunks produced by the even-slicing
fallback are only bounded by `ceil(N / maxApiCalls)` entries, which can
exceed 15; hence every produced chunk holds at most
`max 15 (ceil(N / 25))` entries.
-/
theorem chunk_entry_cap (bp tpr : Nat) (tok : String → Nat)
    (es : List String) :
    (buildChunks bp tpr tok es).Forall
        (fun c => c.length ≤ maxEntriesPerChunk) ∧
      (subtitleChunks bp tpr tok es).Forall
        (fun c => c.length ≤
          max maxEntriesPerChunk (ceilDivNat es.length maxApiCalls)) := by
  constructor
  · rw [List.forall_iff_forall_mem]
    exact buildChunksGo_sizes tpr bp tok es [] bp (by simp)
  · rw [List.forall_iff_forall_mem]
    intro c hc
    unfold subtitleChunks at hc
    split at hc
    · exact le_trans (evenSlices_sizes _ es c hc) (le_max_right _ _)
    · exact le_trans
        (buildChunksGo_sizes tpr bp tok es [] bp (by simp) c hc)
        (le_max_left _ _)

/-! ### TimelineReconciler (src/index.js lines 130-234)

`transcribeChunks` shifts every chunk's segments by the cumulative probed
duration of the lower-indexed chunks; `mergeTranscriptions` sorts all shifted
segments by `start` (V8's `Array.prototype.sort` is stable, so any stable
sort by the same key — here insertion sort — produces the identical list) and
renumbers them `1..N`.
-/

/-- A Whisper segment.  The JS object's `end` field is `endTime` here
(`end` is a Lean keyword). -/
structure Segment where
  start : ℚ
  endTime : ℚ
  text : String
  language : String
deriving DecidableEq

/-- One numbered entry of the merged subtitle document, before SRT
serialisation (src/index.js lines 217-224). -/
structure SubtitleEntry where
  id : Nat
  start : ℚ
  endTime : ℚ
  text : String
deriving DecidableEq

/-- The transcription result for one audio chunk: its segments (chunk-local
timestamps) and its probed duration (src/index.js lines 150-168). -/
structure TranscribedChunk where
  segments : List Segment
  duration : ℚ

/-- Timestamp adjustment of one segment by the running cumulative duration
(src/index.js lines 157-161). -/
def shiftSegment (cum : ℚ) (s : Segment) : Segment :=
  { s with start := s.start + cum, endTime := s.endTime + cum }

/-- The `transcribeChunks` accumulation loop: each chunk's segments shifted
by `cumulativeDuration`, which then grows by the chunk's probed duration
(src/index.js lines 137-173). -/
def adjustSegmentsGo : List TranscribedChunk → ℚ → List Segment
  | [], _ => []
  | c :: rest, cum =>
    c.segments.map (shiftSegment cum) ++ adjustSegmentsGo rest (cum + c.duration)

/-- All segments of a run, with global timestamps. -/
def adjustSegments (cs : List TranscribedChunk) : List Segment :=
  adjustSegmentsGo cs 0

/-- The sort key of `allSegments.sort((a, b) => a.start - b.start)`
(src/index.js line 211). -/
def segBefore (a b : Segment) : Prop := a.start ≤ b.start

instance : DecidableRel segBefore :=
  fun a b => inferInstanceAs (Decidable (a.start ≤ b.start))

instance : IsTotal Segment segBefore := ⟨fun a b => le_total a.start b.start⟩

instance : IsTrans Segment segBefore := ⟨fun _ _ _ => le_trans⟩

/-- The stable sort by `start` performed in `mergeTranscriptions`
(src/index.js line 211). -/
def sortSegments (segs : List Segment) : List Segment :=
  segs.insertionSort segBefore

/-- `mergeTranscriptions` (src/index.js lines 205-234): stable sort by
`start`, then ids `index + 1` and trimmed text.  Times stay numeric here;
`secondsToSRTTime` serialisation is downstream of every claim. -/
def mergeTranscriptions (segs : List Segment) : List SubtitleEntry :=
  (sortSegments segs).enum.map fun p =>
    { id := p.1 + 1, start := p.2.start, endTime := p.2.endTime,
      text := p.2.text.trim }

/-- `allSegments[0].language || 'en'` taken after the sort
(src/index.js line 214). -/
def detectedLanguageOf (segs : List Segment) : String :=
  match (sortSegments segs).head? with
  | some s => if s.language = "" then "en" else s.language
  | none => "en"

/-- Chunk 0 of the offset-correctness scenario: one segment at 2..4,
duration 10.0. -/
def offsetChunk0 : TranscribedChunk := ⟨[⟨2, 4, "a", "en"⟩], 10⟩

/-- Chunk 1 of the offset-correctness scenario: one segment at 1..3,
duration 7.5. -/
def offsetChunk1 : TranscribedChunk := ⟨[⟨1, 3, "b", "en"⟩], 15 / 2⟩

/--
Counterexample to claim C2 as stated: with chunk durations `[10.0, 7.5]` and
chunk-local segments 2..4 in chunk 0 and 1..3 in chunk 1, the merged document
is NOT `{2,4}` and `{11.5,13.5}` — chunk 1's offset is the cumulative
duration of the lower-indexed chunks, i.e. 10.0, not 10.5.
-/
theorem merge_offset_counterexample :
    (mergeTranscriptions (adjustSegments [offsetChunk0, offsetChunk1])).map
        (fun e => (e.start, e.endTime)) ≠
      [((2 : ℚ), (4 : ℚ)), ((23 / 2 : ℚ), (27 / 2 : ℚ))] := by
  norm_num [mergeTranscriptions, sortSegments, adjustSegments, adjustSegmentsGo,
    shiftSegment, segBefore, offsetChunk0, offsetChunk1, List.insertionSort,
    List.orderedInsert, List.enum, List.enumFrom]

/--
Claim C2 as amended: with chunk durations `[10.0, 7.5]` and chunk-local
segments 2..4 in chunk 0 and 1..3 in chunk 1, the merged document has exactly
the global entries `{start:2, end:4}` (id 1) and `{start:11, end:13}` (id 2):
each chunk's segments are shifted by the cumulative duration of all
lower-indexed chunks, which is 10.0 for chunk 1.
-/
theorem merge_offset_correct :
    (mergeTranscriptions (adjustSegments [offsetChunk0, offsetChunk1])).map
        (fun e => (e.id, e.start, e.endTime)) =
      [(1, (2 : ℚ), (4 : ℚ)), (2, (11 : ℚ), (13 : ℚ))] := by
  norm_num [mergeTranscriptions, sortSegments, adjustSegments, adjustSegmentsGo,
    shiftSegment, segBefore, offsetChunk0, offsetChunk1, List.insertionSort,
    List.orderedInsert, List.enum, List.enumFrom]

/--
Claim C5: for every non-empty segment list the merged document is sorted by
`start` on every adjacent pair, ids are the contiguous 1-based sequence in
sorted order, and ties keep the original arrival order (any two segments in
key order in the input stay in that order after the sort).
-/
theorem merge_ordering (segs : List Segment) (hne : segs ≠ []) :
    List.Chain' (fun a b : SubtitleEntry => a.start ≤ b.start)
        (mergeTranscriptions segs) ∧
      (∀ i : Fin (mergeTranscriptions segs).length,
        ((mergeTranscriptions segs).get i).id = i.1 + 1) ∧
      (∀ a b : Segment, List.Sublist [a, b] segs → a.start ≤ b.start →
        List.Sublist [a, b] (sortSegments segs)) := by
  refine ⟨?_, ?_, ?_⟩
  · have hP : List.Pairwise segBefore (sortSegments segs) :=
      List.sorted_insertionSort segBefore segs
    have h2 : List.Chain' (fun a b : Segment => a.start ≤ b.start)
        (sortSegments segs) := List.Pairwise.chain' hP
    unfold mergeTranscriptions
    rw [List.chain'_map]
    have h3 := (List.chain'_map (Prod.snd)
        (l := (sortSegments segs).enum)
        (R := fun a b : Segment => a.start ≤ b.start)).mp
      (by rw [List.enum_map_snd]; exact h2)
    exact h3
  · intro i
    have hi := i.isLt
    simp only [mergeTranscriptions, List.length_map] at hi
    simp only [mergeTranscriptions, List.get_eq_getElem, List.getElem_map,
      List.getElem_enum]
  · intro a b hab hle
    exact List.pair_sublist_insertionSort hle hab

/-- Witness for claim C5's theorem at a concrete non-empty input. -/
theorem merge_ordering_witness :
    ([(⟨2, 4, "a", "en"⟩ : Segment), ⟨2, 3, "b", "en"⟩] ≠ []) ∧
      (List.Chain' (fun a b : SubtitleEntry => a.start ≤ b.start)
          (mergeTranscriptions [⟨2, 4, "a", "en"⟩, ⟨2, 3, "b", "en"⟩]) ∧
        (∀ i : Fin (mergeTranscriptions
            [(⟨2, 4, "a", "en"⟩ : Segment), ⟨2, 3, "b", "en"⟩]).length,
          ((mergeTranscriptions
            [(⟨2, 4, "a", "en"⟩ : Segment), ⟨2, 3, "b", "en"⟩]).get i).id =
            i.1 + 1) ∧
        (∀ a b : Segment,
          List.Sublist [a, b] [(⟨2, 4, "a", "en"⟩ : Segment), ⟨2, 3, "b", "en"⟩] →
          a.start ≤ b.start →
          List.Sublist [a, b] (sortSegments
            [(⟨2, 4, "a", "en"⟩ : Segment), ⟨2, 3, "b", "en"⟩]))) :=
  ⟨by simp, merge_ordering [⟨2, 4, "a", "en"⟩, ⟨2, 3, "b", "en"⟩] (by simp)⟩

/-! ### TranslationDispatcher and usage accounting
(src/translate.js lines 242-324, src/index.js lines 247-302)

The chat endpoint and the tokenizer are oracles: each chunk of a language
carries its `countMessageTokens` result and the outcome of its API call
(an exception, or a response whose `usage` block may be missing).
-/

/-- The `usage` block of a chat response (`prompt_tokens`,
`completion_tokens`, `total_tokens`). -/
structure Usage where
  total : Nat
  prompt : Nat
  completion : Nat
deriving DecidableEq

/-- Outcome of one `openai.createChatCompletion` call: the promise rejects
(`throws`), or resolves with an optional usage block. -/
inductive ChunkOutcome where
  | throws : ChunkOutcome
  | ok : Option Usage → ChunkOutcome
deriving DecidableEq

/-- One chunk of one language as seen by the dispatch loop:
`promptTokens = countMessageTokens(messages, model)` and the call outcome. -/
structure ChunkCall where
  promptTokens : Nat
  outcome : ChunkOutcome
deriving DecidableEq

/-- The aggregated token-usage record returned by `translateSubtitles` and
`translateSRT` (src/translate.js lines 307-312). -/
structure UsageStats where
  tokensUsed : Nat
  inputTokens : Nat
  outputTokens : Nat
  apiCalls : Nat
deriving DecidableEq

/-- The all-zero record, also returned from the catch block
(src/translate.js lines 318-323). -/
def zeroStats : UsageStats := ⟨0, 0, 0, 0⟩

/-- Usage accumulation for one chunk (src/translate.js lines 281-289):
counters grow only when the response carries a usage block whose
`total_tokens` is truthy (non-zero). -/
def accumulateUsage (acc : UsageStats) (u : Option Usage) : UsageStats :=
  match u with
  | some v =>
    if v.total ≠ 0 then
      ⟨acc.tokensUsed + v.total, acc.inputTokens + v.prompt,
        acc.outputTokens + v.completion, acc.apiCalls + 1⟩
    else acc
  | none => acc

/--
The chunk dispatch loop of `translateSubtitles` (src/translate.js lines
248-296) together with the surrounding try/catch:
`maxResponseTokens = maxModelTokens - promptTokens - reservedTokens ≤ 0`
makes the whole function `return` `undefined` (modelled as `none`); a
rejected API call is caught by the function-level catch which returns the
all-zero record, discarding everything accumulated so far.
-/
def dispatchGo (mm : Nat) : List ChunkCall → UsageStats → Option UsageStats
  | [], acc => some acc
  | c :: rest, acc =>
    if (mm : Int) - c.promptTokens - reservedTokens ≤ 0 then none
    else
      match c.outcome with
      | .throws => some zeroStats
      | .ok u => dispatchGo mm rest (accumulateUsage acc u)

/-- `translateSubtitles` for one target language, given the model context
window `mm` and the oracle data of its chunks. -/
def translateSubtitlesRun (mm : Nat) (calls : List ChunkCall) :
    Option UsageStats :=
  dispatchGo mm calls zeroStats

/-- How many `createChatCompletion` calls the loop actually issues: one per
chunk that passes the budget check, stopping after a rejected call and
issuing none for or after a chunk that fails the budget check. -/
def callsIssued (mm : Nat) : List ChunkCall → Nat
  | [] => 0
  | c :: rest =>
    if (mm : Int) - c.promptTokens - reservedTokens ≤ 0 then 0
    else
      match c.outcome with
      | .throws => 1
      | .ok _ => 1 + callsIssued mm rest

/-- Pointwise sum of usage records, as accumulated by `translateSRT`
(src/index.js lines 275-278). -/
def addStats (a b : UsageStats) : UsageStats :=
  ⟨a.tokensUsed + b.tokensUsed, a.inputTokens + b.inputTokens,
    a.outputTokens + b.outputTokens, a.apiCalls + b.apiCalls⟩

/-- The per-language loop of `translateSRT` (src/index.js lines 256-301):
a defined result (any object, even all-zero) is accumulated, an `undefined`
result is logged and skipped, and the loop always continues. -/
def translateSRTGo (mm : Nat) :
    List (List ChunkCall) → UsageStats → UsageStats
  | [], acc => acc
  | l :: rest, acc =>
    match translateSubtitlesRun mm l with
    | some s => translateSRTGo mm rest (addStats acc s)
    | none => translateSRTGo mm rest acc

/-- The stats object returned by `translateSRT`. -/
def translateSRTRun (mm : Nat) (perLang : List (List ChunkCall)) : UsageStats :=
  translateSRTGo mm perLang zeroStats

/-- Decidable success condition for one chunk call: positive response-token
budget and a response with a truthy `total_tokens` usage block. -/
def callOk (mm : Nat) (c : ChunkCall) : Bool :=
  decide (0 < (mm : Int) - c.promptTokens - reservedTokens) &&
    match c.outcome with
    | .ok (some u) => u.total != 0
    | _ => false

/-! ### The processVideo control flow (src/index.js lines 20-84, 309-333) -/

/-- The speech-to-text oracle data for one audio chunk: `none` when
`transcriptionResult.transcriptionData.segments` is absent (which makes
`transcribeChunks` throw), plus the probed duration. -/
structure AudioChunkOutcome where
  segments : Option (List Segment)
  duration : ℚ

/-- The full oracle data of one pipeline run. -/
structure RunInput where
  videoExists : Bool
  splitOk : Bool
  audioChunks : List AudioChunkOutcome
  mm : Nat
  perLang : List (List ChunkCall)

/-- The `transcribeChunks` loop (src/index.js lines 141-173): one
`transcribeAudio` call per chunk, failing the whole stage at the first chunk
without segments, otherwise collecting the offset-adjusted segments while
`cumulativeDuration` grows by each probed duration. -/
def transcribeChunksRun : List AudioChunkOutcome → ℚ → Option (List Segment)
  | [], _ => some []
  | c :: rest, cum =>
    match c.segments with
    | none => none
    | some segs =>
      (transcribeChunksRun rest (cum + c.duration)).map
        (fun r => segs.map (shiftSegment cum) ++ r)

/-- Number of `transcribeAudio` calls the loop makes: one per chunk up to and
including the first failing one. -/
def transcriptionCalls : List AudioChunkOutcome → Nat
  | [] => 0
  | c :: rest =>
    match c.segments with
    | none => 1
    | some _ => 1 + transcriptionCalls rest

/-- Result of `processVideo`: a rethrown error, or the returned stats with
the merged document and detected language. -/
inductive RunResult where
  | failure : RunResult
  | success : UsageStats → List SubtitleEntry → String → RunResult

/--
`processVideo` (src/index.js lines 20-84).  The second component records
whether `cleanupTemporaryFiles` ran: it is called after the translation step
on the success path only — the catch block rethrows without running it.
The returned stats are exactly `translateSRT`'s; `transcribeChunks` never
contributes to them.
-/
def processVideoRun (r : RunInput) : RunResult × Bool :=
  if r.videoExists then
    if r.splitOk then
      match transcribeChunksRun r.audioChunks 0 with
      | none => (.failure, false)
      | some segs =>
        if segs.isEmpty then (.failure, false)
        else
          (.success (translateSRTRun r.mm r.perLang) (mergeTranscriptions segs)
            (detectedLanguageOf segs), true)
    else (.failure, false)
  else (.failure, false)

theorem dispatchGo_calls (mm : Nat) :
    ∀ (calls : List ChunkCall) (acc : UsageStats),
      (∀ c ∈ calls, callOk mm c = true) →
      ∃ s, dispatchGo mm calls acc = some s ∧
        s.apiCalls = acc.apiCalls + calls.length := by
  intro calls
  induction calls with
  | nil =>
    intro acc _
    exact ⟨acc, rfl, by simp⟩
  | cons c rest ih =>
    intro acc hok
    have hc := hok c (by simp)
    obtain ⟨pt, outc⟩ := c
    simp only [callOk, Bool.and_eq_true, decide_eq_true_eq] at hc
    obtain ⟨hpos, hmatch⟩ := hc
    simp only [dispatchGo, if_neg (not_le.mpr hpos)]
    cases outc with
    | throws => simp at hmatch
    | ok u =>
      cases u with
      | none => simp at hmatch
      | some v =>
        simp only [bne_iff_ne, ne_eq] at hmatch
        have hacc : (accumulateUsage acc (some v)).apiCalls =
            acc.apiCalls + 1 := by
          simp [accumulateUsage, hmatch]
        obtain ⟨s, hs, hapi⟩ := ih (accumulateUsage acc (some v))
          (fun x hx => hok x (by simp [hx]))
        refine ⟨s, hs, ?_⟩
        rw [hapi, hacc]
        simp only [List.length_cons]
        omega

theorem dispatchGo_abort (mm : Nat) (bad : ChunkCall)
    (hbad : (mm : Int) - bad.promptTokens - reservedTokens ≤ 0)
    (after : List ChunkCall) :
    ∀ (front : List ChunkCall) (acc : UsageStats),
      (∀ c ∈ front, callOk mm c = true) →
      dispatchGo mm (front ++ bad :: after) acc = none := by
  intro front
  induction front with
  | nil =>
    intro acc _
    simp only [List.nil_append, dispatchGo]
    rw [if_pos hbad]
  | cons c rest ih =>
    intro acc hok
    have hc := hok c (by simp)
    obtain ⟨pt, outc⟩ := c
    simp only [callOk, Bool.and_eq_true, decide_eq_true_eq] at hc
    obtain ⟨hpos, hmatch⟩ := hc
    simp only [List.cons_append, dispatchGo, if_neg (not_le.mpr hpos)]
    cases outc with
    | throws => simp at hmatch
    | ok u =>
      cases u with
      | none => simp at hmatch
      | some v => exact ih _ (fun x hx => hok x (by simp [hx]))

theorem callsIssued_abort (mm : Nat) (bad : ChunkCall)
    (hbad : (mm : Int) - bad.promptTokens - reservedTokens ≤ 0)
    (after : List ChunkCall) :
    ∀ front : List ChunkCall,
      (∀ c ∈ front, callOk mm c = true) →
      callsIssued mm (front ++ bad :: after) = front.length := by
  intro front
  induction front with
  | nil =>
    intro _
    simp only [List.nil_append, callsIssued]
    rw [if_pos hbad]
    rfl
  | cons c rest ih =>
    intro hok
    have hc := hok c (by simp)
    obtain ⟨pt, outc⟩ := c
    simp only [callOk, Bool.and_eq_true, decide_eq_true_eq] at hc
    obtain ⟨hpos, hmatch⟩ := hc
    simp only [List.cons_append, callsIssued, if_neg (not_le.mpr hpos)]
    cases outc with
    | throws => simp at hmatch
    | ok u =>
      cases u with
      | none => simp at hmatch
      | some v =>
        show 1 + callsIssued mm (rest ++ bad :: after) = rest.length + 1
        rw [ih (fun x hx => hok x (by simp [hx]))]
        omega

theorem dispatchGo_throws (mm : Nat) (c : ChunkCall) (after : List ChunkCall)
    (hpos : 0 < (mm : Int) - c.promptTokens - reservedTokens)
    (hthrow : c.outcome = .throws) :
    ∀ (front : List ChunkCall) (acc : UsageStats),
      (∀ x ∈ front, callOk mm x = true) →
      dispatchGo mm (front ++ c :: after) acc = some zeroStats := by
  intro front
  induction front with
  | nil =>
    intro acc _
    simp only [List.nil_append, dispatchGo, if_neg (not_le.mpr hpos), hthrow]
  | cons x rest ih =>
    intro acc hok
    have hx := hok x (by simp)
    obtain ⟨pt, outc⟩ := x
    simp only [callOk, Bool.and_eq_true, decide_eq_true_eq] at hx
    obtain ⟨hp, hmatch⟩ := hx
    simp only [List.cons_append, dispatchGo, if_neg (not_le.mpr hp)]
    cases outc with
    | throws => simp at hmatch
    | ok u =>
      cases u with
      | none => simp at hmatch
      | some v => exact ih _ (fun y hy => hok y (by simp [hy]))

theorem translateSRTGo_skip (mm : Nat) (bad : List ChunkCall)
    (hbad : translateSubtitlesRun mm bad = none)
    (ls2 : List (List ChunkCall)) :
    ∀ (ls1 : List (List ChunkCall)) (acc : UsageStats),
      translateSRTGo mm (ls1 ++ bad :: ls2) acc =
        translateSRTGo mm (ls1 ++ ls2) acc := by
  intro ls1
  induction ls1 with
  | nil =>
    intro acc
    simp only [List.nil_append, translateSRTGo, hbad]
  | cons l rest ih =>
    intro acc
    simp only [List.cons_append, translateSRTGo]
    rcases htop : translateSubtitlesRun mm l with _ | s
    · exact ih acc
    · exact ih (addStats acc s)

theorem translateSRTGo_sum (mm : Nat) :
    ∀ (ls : List (List ChunkCall)) (acc : UsageStats),
      (∀ l ∈ ls, ∀ c ∈ l, callOk mm c = true) →
      (translateSRTGo mm ls acc).apiCalls =
        acc.apiCalls + (ls.map List.length).sum := by
  intro ls
  induction ls with
  | nil =>
    intro acc _
    simp [translateSRTGo]
  | cons l rest ih =>
    intro acc hok
    obtain ⟨s, hs, hapi⟩ := dispatchGo_calls mm l zeroStats (hok l (by simp))
    have hrun : translateSubtitlesRun mm l = some s := hs
    simp only [translateSRTGo, hrun]
    rw [ih _ (fun x hx => hok x (by simp [hx]))]
    simp only [addStats, hapi, zeroStats, List.map_cons, List.sum_cons]
    omega

/-- A chunk call that succeeds with usage data (total 10, prompt 6,
completion 4) under a 4096-token window. -/
def okCall : ChunkCall := ⟨100, .ok (some ⟨10, 6, 4⟩)⟩

/-- A chunk call whose prompt leaves a non-positive response budget under a
4096-token window: 4096 - 5000 - 500 < 0. -/
def badCall : ChunkCall := ⟨5000, .ok (some ⟨10, 6, 4⟩)⟩

/-- A chunk call whose API call rejects. -/
def throwCall : ChunkCall := ⟨100, .throws⟩

/-- An audio chunk that transcribes successfully. -/
def audioOk : AudioChunkOutcome := ⟨some [⟨0, 1, "a", "en"⟩], 300⟩

/-- A fully successful three-audio-chunk, two-language run, each language one
translation chunk. -/
def runAllOk : RunInput :=
  ⟨true, true, [audioOk, audioOk, audioOk], 4096, [[okCall], [okCall]]⟩

/-- Projection of a run result onto its returned stats. -/
def runStats : RunResult → Option UsageStats
  | .failure => none
  | .success s _ _ => some s

/--
Counterexample to claim C6 as stated: in a completed run with 3 transcription
calls and one successful translation chunk for each of 2 languages, the final
`apiCalls` is 2 — the sum of the translation chunk counts only — and not
`3 + 2`: `processVideo` returns `translateSRT`'s counters unchanged and the
transcription calls are never added.
-/
theorem usage_apiCalls_counterexample :
    runStats (processVideoRun runAllOk).1 =
        some (translateSRTRun 4096 [[okCall], [okCall]]) ∧
      (translateSRTRun 4096 [[okCall], [okCall]]).apiCalls = 2 ∧
      transcriptionCalls runAllOk.audioChunks = 3 ∧
      (translateSRTRun 4096 [[okCall], [okCall]]).apiCalls ≠ 3 + 2 := by
  refine ⟨rfl, by decide, by decide, by decide⟩

/--
Claim C6 as amended: the final UsageStats of a completed run are exactly the
translation counters: when every translation chunk call of every language
succeeds with usage data, `apiCalls` equals the sum of the translation chunk
counts across the target languages; the transcription calls are not counted.
-/
theorem usage_apiCalls (r : RunInput)
    (hok : ∀ l ∈ r.perLang, ∀ c ∈ l, callOk r.mm c = true) :
    (translateSRTRun r.mm r.perLang).apiCalls =
        (r.perLang.map List.length).sum ∧
      ∀ stats entries lang,
        (processVideoRun r).1 = RunResult.success stats entries lang →
        stats.apiCalls = (r.perLang.map List.length).sum := by
  have hsum : (translateSRTRun r.mm r.perLang).apiCalls =
      (r.perLang.map List.length).sum := by
    have := translateSRTGo_sum r.mm r.perLang zeroStats hok
    simpa [translateSRTRun, zeroStats] using this
  refine ⟨hsum, ?_⟩
  intro stats entries lang hrun
  unfold processVideoRun at hrun
  split at hrun
  · split at hrun
    · split at hrun
      · exact absurd hrun (by simp)
      · split at hrun
        · exact absurd hrun (by simp)
        · rw [Prod.fst] at hrun
          cases hrun
          exact hsum
    · exact absurd hrun (by simp)
  · exact absurd hrun (by simp)

/-- Witness for claim C6's amended theorem at the concrete all-success run. -/
theorem usage_apiCalls_witness :
    (translateSRTRun runAllOk.mm runAllOk.perLang).apiCalls =
      (runAllOk.perLang.map List.length).sum :=
  (usage_apiCalls runAllOk (by decide)).1

/--
Counterexample to claim C7 as stated: in a language whose second of three
chunks has a non-positive response budget, the loop issues only 1 call — the
third chunk of the same language is never processed — and the whole language
returns `undefined`; the failure is not scoped to the single (chunk,
language) pair.
-/
theorem budget_abort_counterexample :
    translateSubtitlesRun 4096 [okCall, badCall, okCall] = none ∧
      callsIssued 4096 [okCall, badCall, okCall] = 1 ∧
      callsIssued 4096 [okCall, badCall, okCall] ≠ 2 := by decide

/--
Claim C7 as amended: when a chunk's computed `maxResponseTokens` is ≤ 0 the
call for it is not issued, but the failure aborts the whole language: after
any number of successfully dispatched earlier chunks, the loop returns
`undefined` without issuing calls for the offending chunk or any later chunk
of that language; other target languages are still processed exactly as if
the failed language were absent.
-/
theorem budget_abort (mm : Nat) (front after : List ChunkCall)
    (bad : ChunkCall)
    (hfront : ∀ c ∈ front, callOk mm c = true)
    (hbad : (mm : Int) - bad.promptTokens - reservedTokens ≤ 0) :
    translateSubtitlesRun mm (front ++ bad :: after) = none ∧
      callsIssued mm (front ++ bad :: after) = front.length ∧
      ∀ ls1 ls2 : List (List ChunkCall),
        translateSRTRun mm (ls1 ++ (front ++ bad :: after) :: ls2) =
          translateSRTRun mm (ls1 ++ ls2) := by
  have hnone : translateSubtitlesRun mm (front ++ bad :: after) = none :=
    dispatchGo_abort mm bad hbad after front zeroStats hfront
  refine ⟨hnone, callsIssued_abort mm bad hbad after front hfront, ?_⟩
  intro ls1 ls2
  exact translateSRTGo_skip mm _ hnone ls2 ls1 zeroStats

/-- Witness for claim C7's amended theorem at a concrete three-chunk
language. -/
theorem budget_abort_witness :
    translateSubtitlesRun 4096 ([okCall] ++ badCall :: [okCall]) = none ∧
      callsIssued 4096 ([okCall] ++ badCall :: [okCall]) = [okCall].length ∧
      ∀ ls1 ls2 : List (List ChunkCall),
        translateSRTRun 4096 (ls1 ++ ([okCall] ++ badCall :: [okCall]) :: ls2) =
          translateSRTRun 4096 (ls1 ++ ls2) :=
  budget_abort 4096 [okCall] [okCall] badCall (by decide) (by decide)

/--
Claim C10: `translateSubtitles` never propagates an exception: a rejected API
call is absorbed by the function-level catch, which returns the all-zero
usage record (discarding any counters already accumulated for that
language); a non-positive response-token budget returns `undefined`; and in
both cases the pipeline carries on — whenever the stages before translation
succeed, `processVideo` completes with a success result for every possible
set of translation outcomes, and the cleanup step runs.
-/
theorem translate_never_propagates (mm : Nat) (front after : List ChunkCall)
    (c : ChunkCall) (hfront : ∀ x ∈ front, callOk mm x = true) :
    (c.outcome = ChunkOutcome.throws →
      0 < (mm : Int) - c.promptTokens - reservedTokens →
      translateSubtitlesRun mm (front ++ c :: after) = some zeroStats) ∧
      ((mm : Int) - c.promptTokens - reservedTokens ≤ 0 →
        translateSubtitlesRun mm (front ++ c :: after) = none) ∧
      ∀ r : RunInput, r.videoExists = true → r.splitOk = true →
        ∀ segs, transcribeChunksRun r.audioChunks 0 = some segs →
          segs.isEmpty = false →
          processVideoRun r =
            (RunResult.success (translateSRTRun r.mm r.perLang)
              (mergeTranscriptions segs) (detectedLanguageOf segs), true) := by
  refine ⟨?_, ?_, ?_⟩
  · intro hthrow hpos
    exact dispatchGo_throws mm c after hpos hthrow front zeroStats hfront
  · intro hbad
    exact dispatchGo_abort mm c hbad after front zeroStats hfront
  · intro r hv hs segs hsegs hne
    unfold processVideoRun
    rw [hv, if_pos rfl, hs, if_pos rfl, hsegs]
    simp only [hne]
    rfl

/-- Witness for claim C10's theorem: a rejected call yields the zero record,
and a run whose only language fails its budget still completes successfully. -/
theorem translate_never_propagates_witness :
    translateSubtitlesRun 4096 ([okCall] ++ throwCall :: [okCall]) =
        some zeroStats ∧
      processVideoRun ⟨true, true, [audioOk], 4096, [[badCall]]⟩ =
        (RunResult.success (translateSRTRun 4096 [[badCall]])
          (mergeTranscriptions ((transcribeChunksRun [audioOk] 0).getD []))
          (detectedLanguageOf ((transcribeChunksRun [audioOk] 0).getD [])),
          true) :=
  ⟨(translate_never_propagates 4096 [okCall] [okCall] throwCall
      (by decide)).1 rfl (by decide),
    (translate_never_propagates 4096 [okCall] [okCall] throwCall
      (by decide)).2.2 ⟨true, true, [audioOk], 4096, [[badCall]]⟩ rfl rfl
      ((transcribeChunksRun [audioOk] 0).getD []) rfl rfl⟩

/-- A run whose audio split fails. -/
def splitFailedRun : RunInput := ⟨true, false, [], 4096, []⟩

/--
Counterexample to claim C8 as stated: a run that fails at the audio-split
stage terminates without ever calling `cleanupTemporaryFiles` — the catch
block of `processVideo` rethrows without cleanup, so the cleanup step is not
unconditional and not isolated from earlier failures.
-/
theorem cleanup_counterexample :
    (processVideoRun splitFailedRun).1 = RunResult.failure ∧
      (processVideoRun splitFailedRun).2 = false :=
  ⟨rfl, rfl⟩

/--
Claim C8 as amended: `cleanupTemporaryFiles` runs exactly when the run
succeeds — it is the last step of the success path, and every failure
(missing video, split failure, transcription failure, empty transcription)
rethrows without running it, leaving the temporary audio chunk files behind.
-/
theorem cleanup_iff_success (r : RunInput) :
    (processVideoRun r).2 = true ↔
      ∃ stats entries lang,
        (processVideoRun r).1 = RunResult.success stats entries lang := by
  unfold processVideoRun
  split
  · split
    · split
      · simp
      · split
        · simp
        · simp
    · simp
  · simp

/-! ### ProgressReporter (src/index.js lines 35-71, 145-148, 256-293)

On the success path `processVideo` emits, in order: `0` and `10` around the
audio split, `10 + ((i+1)/(T+4))*40` before transcribing chunk `i` of `T`,
`50` and `60` around the merge, `60 + ((i+1)/L)*30` twice per target language
`i` of `L` (before dispatch and after its result or failure message), and
finally `100` after cleanup.
-/

/-- The transcription-stage percentages (src/index.js lines 145-148). -/
def transcribeProgress (T : Nat) : List ℚ :=
  (List.range T).map fun i : Nat => 10 + (((i : ℚ) + 1) / ((T : ℚ) + 4)) * 40

/-- The translation-stage percentages: each language emits its percentage
twice, before and after its `translateSubtitles` call
(src/index.js lines 258-293). -/
def translateProgress (L : Nat) : List ℚ :=
  ((List.range L).map fun i : Nat =>
    [60 + (((i : ℚ) + 1) / (L : ℚ)) * 30,
      60 + (((i : ℚ) + 1) / (L : ℚ)) * 30]).flatten

/-- The full emission sequence of a successful run with `T` audio chunks and
`L` target languages. -/
def progressSeq (T L : Nat) : List ℚ :=
  [0, 10] ++ transcribeProgress T ++ [50, 60] ++ translateProgress L ++ [100]

theorem chain'_le_map_range (n : Nat) (f : Nat → ℚ)
    (hf : ∀ i, f i ≤ f (i + 1)) :
    List.Chain' (· ≤ ·) ((List.range n).map f) := by
  rw [List.chain'_iff_get]
  intro i hi
  simp only [List.get_eq_getElem, List.getElem_map, List.getElem_range]
  exact hf i

theorem chain'_append_of_bounds (l₁ l₂ : List ℚ) (m : ℚ)
    (h₁ : List.Chain' (· ≤ ·) l₁) (h₂ : List.Chain' (· ≤ ·) l₂)
    (hb₁ : ∀ x ∈ l₁, x ≤ m) (hb₂ : ∀ y ∈ l₂, m ≤ y) :
    List.Chain' (· ≤ ·) (l₁ ++ l₂) := by
  rw [List.chain'_append]
  refine ⟨h₁, h₂, ?_⟩
  intro x hx y hy
  have hxm : x ≤ m := hb₁ x (List.mem_of_getLast?_eq_some hx)
  have hmy : m ≤ y := hb₂ y (List.mem_of_mem_head? hy)
  exact le_trans hxm hmy

theorem transcribeProgress_bounds (T : Nat) :
    ∀ x ∈ transcribeProgress T, 10 ≤ x ∧ x ≤ 50 := by
  intro x hx
  rw [transcribeProgress] at hx
  obtain ⟨i, hi, rfl⟩ := List.mem_map.mp hx
  rw [List.mem_range] at hi
  have hT : (0 : ℚ) < (T : ℚ) + 4 := by positivity
  have hfrac : ((i : ℚ) + 1) / ((T : ℚ) + 4) ≤ 1 := by
    rw [div_le_one hT]
    have : (i : ℚ) < (T : ℚ) := by exact_mod_cast hi
    linarith
  have hnn : 0 ≤ ((i : ℚ) + 1) / ((T : ℚ) + 4) := by positivity
  constructor
  · nlinarith
  · nlinarith

theorem translateProgress_bounds (L : Nat) :
    ∀ x ∈ translateProgress L, 60 ≤ x ∧ x ≤ 90 := by
  intro x hx
  rw [translateProgress] at hx
  obtain ⟨block, hblock, hxb⟩ := List.mem_flatten.mp hx
  obtain ⟨i, hi, rfl⟩ := List.mem_map.mp hblock
  rw [List.mem_range] at hi
  have hx' : x = 60 + (((i : ℚ) + 1) / (L : ℚ)) * 30 := by
    simp only [List.mem_cons, List.not_mem_nil, or_false] at hxb
    rcases hxb with h | h
    · exact h
    · exact h
  subst hx'
  have hLpos : 0 < L := by omega
  have hL : (0 : ℚ) < (L : ℚ) := by exact_mod_cast hLpos
  have hfrac : ((i : ℚ) + 1) / (L : ℚ) ≤ 1 := by
    rw [div_le_one hL]
    have h1 : i + 1 ≤ L := hi
    exact_mod_cast h1
  have hnn : 0 ≤ ((i : ℚ) + 1) / (L : ℚ) := by positivity
  constructor
  · nlinarith
  · nlinarith

theorem flatten_pairs_eq (g : Nat → ℚ) :
    ∀ n : Nat, ((List.range n).map fun i => [g i, g i]).flatten =
      (List.range (2 * n)).map fun i => g (i / 2) := by
  intro n
  induction n with
  | zero => simp
  | succ n ih =>
    rw [List.range_succ, List.map_append, List.flatten_append, ih]
    have h2 : 2 * (n + 1) = 2 * n + 1 + 1 := by ring
    rw [h2, List.range_succ, List.range_succ, List.map_append, List.map_append]
    have e1 : 2 * n / 2 = n := by omega
    have e2 : (2 * n + 1) / 2 = n := by omega
    simp [e1, e2]

theorem transcribeProgress_chain (T : Nat) :
    List.Chain' (· ≤ ·) (transcribeProgress T) := by
  apply chain'_le_map_range
  intro i
  have hT : (0 : ℚ) < (T : ℚ) + 4 := by positivity
  push_cast
  gcongr
  linarith

theorem translateProgress_chain (L : Nat) :
    List.Chain' (· ≤ ·) (translateProgress L) := by
  rw [translateProgress,
    flatten_pairs_eq (fun i : Nat => 60 + (((i : ℚ) + 1) / (L : ℚ)) * 30) L]
  apply chain'_le_map_range
  intro i
  rcases Nat.eq_zero_or_pos L with hL | hL
  · subst hL
    simp
  · have hLq : (0 : ℚ) < (L : ℚ) := by exact_mod_cast hL
    gcongr
    omega

/--
Claim C9: within a single run the sequence of progress percentages emitted
through the callback is monotonically non-decreasing, for every number of
audio chunks and target languages, and the parametric stage emissions stay
within their weight bands: transcription within 10-50 and translation within
60-90 (the fixed emissions 0, 10, 50, 60, 100 sit on their stage
boundaries).
-/
theorem progress_monotone (T L : Nat) :
    List.Chain' (· ≤ ·) (progressSeq T L) ∧
      (transcribeProgress T).Forall (fun x => 10 ≤ x ∧ x ≤ 50) ∧
      (translateProgress L).Forall (fun x => 60 ≤ x ∧ x ≤ 90) := by
  have htb := transcribeProgress_bounds T
  have hlb := translateProgress_bounds L
  refine ⟨?_, ?_, ?_⟩
  · unfold progressSeq
    apply chain'_append_of_bounds _ _ 90
    · apply chain'_append_of_bounds _ _ 60
      · apply chain'_append_of_bounds _ _ 50
        · apply chain'_append_of_bounds _ _ 10
          · norm_num [List.chain'_cons, List.chain'_singleton]
          · exact transcribeProgress_chain T
          · intro x hx
            simp only [List.mem_cons, List.not_mem_nil, or_false] at hx
            rcases hx with rfl | rfl <;> norm_num
          · intro y hy
            exact (htb y hy).1
        · norm_num [List.chain'_cons, List.chain'_singleton]
        · intro x hx
          rw [List.mem_append] at hx
          rcases hx with hx | hx
          · simp only [List.mem_cons, List.not_mem_nil, or_false] at hx
            rcases hx with rfl | rfl <;> norm_num
          · linarith [(htb x hx).2]
        · intro y hy
          simp only [List.mem_cons, List.not_mem_nil, or_false] at hy
          rcases hy with rfl | rfl <;> norm_num
      · exact translateProgress_chain L
      · intro x hx
        rw [List.mem_append] at hx
        rcases hx with hx | hx
        · rw [List.mem_append] at hx
          rcases hx with hx | hx
          · simp only [List.mem_cons, List.not_mem_nil, or_false] at hx
            rcases hx with rfl | rfl <;> norm_num
          · linarith [(htb x hx).2]
        · simp only [List.mem_cons, List.not_mem_nil, or_false] at hx
          rcases hx with rfl | rfl <;> norm_num
      · intro y hy
        exact (hlb y hy).1
    · norm_num [List.chain'_cons, List.chain'_singleton]
    · intro x hx
      rw [List.mem_append] at hx
      rcases hx with hx | hx
      · rw [List.mem_append] at hx
        rcases hx with hx | hx
        · rw [List.mem_append] at hx
          rcases hx with hx | hx
          · simp only [List.mem_cons, List.not_mem_nil, or_false] at hx
            rcases hx with rfl | rfl <;> norm_num
          · linarith [(htb x hx).2]
        · simp only [List.mem_cons, List.not_mem_nil, or_false] at hx
          rcases hx with rfl | rfl <;> norm_num
      · exact (hlb x hx).2
    · intro y hy
      simp only [List.mem_singleton] at hy
      subst hy
      norm_num
  · rw [List.forall_iff_forall_mem]
    exact htb
  · rw [List.forall_iff_forall_mem]
    exact hlb

end VideoTranscriber
